import Mathlib

/-
Verification of the versioned video storage scheme of signbank-video
(src/video/models.py): shadow path naming (GlossVideoStorage.get_valid_name),
poster derivation (VideoPosterMixin.poster_path / poster_url / delete_files)
and the version chain manager (GlossVideo.reversion).

Paths are lists of characters. Filesystem state is the list of existing
absolute paths. Effects are logged in a trace; Python exceptions are modelled
as error outcomes carrying the object state at raise time, since Python
mutates the record in place.
-/

set_option autoImplicit false

namespace SBV

abbrev FPath := List Char

/-- Index of the last occurrence of a character in a path, as in Python
str.rfind restricted to single characters (none when absent). -/
def lastIdx? (c : Char) : FPath → Option Nat
  | [] => none
  | a :: as =>
    match lastIdx? c as with
    | some i => some (i + 1)
    | none => if a = c then some 0 else none

/-- Position one past the last path separator (0 when there is none),
the index where the basename starts, as in posixpath.split. -/
def sepCut (p : FPath) : Nat :=
  match lastIdx? '/' p with
  | some i => i + 1
  | none => 0

/-- The basename part of os.path.split. -/
def basenameOf (p : FPath) : FPath := p.drop (sepCut p)

/-- The directory part of os.path.split: everything up to the last slash,
with trailing slashes stripped unless the head is entirely slashes. -/
def dirOf (p : FPath) : FPath :=
  let head := p.take (sepCut p)
  if head ≠ [] ∧ ¬ head.all (fun c => c = '/') then
    (head.reverse.dropWhile (fun c => c = '/')).reverse
  else head

/-- os.path.splitext for posix paths: split at the last dot of the basename,
provided the part of the basename before that dot is not all dots. -/
def splitext (p : FPath) : FPath × FPath :=
  match lastIdx? '.' p with
  | none => (p, [])
  | some d =>
    let fi := sepCut p
    if fi ≤ d ∧ ¬ (((p.drop fi).take (d - fi)).all (fun c => c = '.')) then
      (p.take d, p.drop d)
    else (p, [])

/-- os.path.join for two posix path components. -/
def joinPath (a b : FPath) : FPath :=
  if b.head? = some '/' then b
  else if a = [] ∨ a.getLast? = some '/' then a ++ b
  else a ++ '/' :: b

/-- GlossVideoStorage.get_valid_name: partition files into subdirectories
named by the first two characters of the basename. -/
def get_valid_name (name : FPath) : FPath :=
  joinPath (dirOf name) (joinPath ((basenameOf name).take 2) (basenameOf name))

/-- The poster path derivation of VideoPosterMixin.poster_path and
poster_url: strip the extension and append ".jpg". -/
def posterPathOf (vid : FPath) : FPath := (splitext vid).1 ++ ".jpg".toList

/-- k copies of the ".bak" suffix, leftmost block first. -/
def bakRep : Nat → FPath
  | 0 => []
  | k + 1 => ".bak".toList ++ bakRep k

/-- Environment choices outside the program: whether os.rename raises for a
reason other than a missing source (permissions, bad destination), and
whether the external frame extraction fails. -/
structure Env where
  renameFails : Bool
  extractFails : Bool
deriving DecidableEq

/-- Filesystem and persistence effects performed by an operation. -/
inductive FsOp where
  | rename : FPath → FPath → FsOp
  | unlink : FPath → FsOp
  | extract : FPath → FPath → FsOp
  | save : FsOp
  | deleteRec : FsOp
deriving DecidableEq

/-- Errors surfaced by the model: the generic error raised by reversion on a
corrupted chain, an os.rename failure, a frame extraction failure, and
exhaustion of the candidate search bound (provably unreachable). -/
inductive VErr where
  | chainCorruption
  | storageFailure
  | generationFailure
  | fuelExhausted
deriving DecidableEq

/-- In-memory state of a GlossVideo record: version and videofile.name. -/
structure RecState where
  version : Int
  name : FPath
deriving DecidableEq

/-- Result of poster_path: the returned path (none when create=False and the
poster is absent, or on error), final filesystem, trace and error. -/
structure PosterOut where
  result : Option FPath
  fs : List FPath
  trace : List FsOp
  err : Option VErr
deriving DecidableEq

/-- Result of poster_url. -/
structure UrlOut where
  url : Option FPath
  fs : List FPath
  trace : List FsOp
  err : Option VErr
deriving DecidableEq

/-- Result of reversion / delete paths: the record state after the call
(none when the metadata record was deleted; on an error, the in-place
mutations already performed are visible), final filesystem, trace, error. -/
structure Outcome where
  record : Option RecState
  fs : List FPath
  trace : List FsOp
  err : Option VErr
deriving DecidableEq

/-- VideoPosterMixin.poster_path. The video path is storage root joined with
the record name. Modelled from the spec: extract_frame lives in
video/convertvideo.py which is not part of the source under analysis; per the
spec it creates the poster file on success and surfaces a GenerationFailure
on failure. -/
def poster_path (loc : FPath) (env : Env) (fs : List FPath) (name : FPath)
    (create : Bool) : PosterOut :=
  let vid := joinPath loc name
  let pp := posterPathOf vid
  if pp ∈ fs then ⟨some pp, fs, [], none⟩
  else if create then
    if env.extractFails then ⟨none, fs, [FsOp.extract vid pp], some VErr.generationFailure⟩
    else ⟨some pp, pp :: fs, [FsOp.extract vid pp], none⟩
  else ⟨none, fs, [], none⟩

/-- VideoPosterMixin.poster_url: calls poster_path with create=True (the
source comment reads "generate the poster image if needed"), then swaps the
extension on the video URL. Modelled from the spec: the video URL is the
record name under the public URL root rather than the storage root. -/
def poster_url (loc baseUrl : FPath) (env : Env) (fs : List FPath)
    (name : FPath) : UrlOut :=
  let po := poster_path loc env fs name true
  match po.err with
  | some e => ⟨none, po.fs, po.trace, some e⟩
  | none => ⟨some ((splitext (joinPath baseUrl name)).1 ++ ".jpg".toList), po.fs, po.trace, none⟩

/-- VideoPosterMixin.delete_files: a single try block unlinks the video file,
then the poster when poster_path(create=False) finds one; any exception is
swallowed, so a failing video unlink skips the poster unlink. -/
def delete_files (loc : FPath) (fs : List FPath) (name : FPath) :
    List FPath × List FsOp :=
  let vid := joinPath loc name
  if vid ∈ fs then
    let fs1 := fs.erase vid
    let pp := posterPathOf vid
    if pp ∈ fs1 then (fs1.erase pp, [FsOp.unlink vid, FsOp.unlink pp])
    else (fs1, [FsOp.unlink vid])
  else (fs, [])

/-- Effect of a successful os.rename on the set of existing paths. -/
def fsRename (src dst : FPath) (fs : List FPath) : List FPath :=
  let l := fs.erase src
  if dst ∈ l then l else dst :: l

/-- The candidate search loop of reversion (advance direction): while a file
exists at the candidate, append ".bak" and increment the version. Fuel
bounds the recursion; fs.length + 1 is always enough. -/
def findFree (loc : FPath) (fs : List FPath) : Nat → FPath → Int → Option (FPath × Int)
  | 0, _, _ => none
  | fuel + 1, nm, v =>
    if joinPath loc nm ∈ fs then findFree loc fs fuel (nm ++ ".bak".toList) (v + 1)
    else some (nm, v)

/-- The shared tail of reversion: os.rename of the record file to the new
name, removal of the poster computed from the old name when present, update
of videofile.name and save. On a rename failure the record keeps the old
name but any version mutation already made (in st1) stays visible. -/
def renamePhase (loc : FPath) (env : Env) (fs : List FPath) (oldName : FPath)
    (st1 : RecState) (newname : FPath) : Outcome :=
  let src := joinPath loc oldName
  let dst := joinPath loc newname
  if src ∈ fs ∧ env.renameFails = false then
    let fs2 := fsRename src dst fs
    let pp := posterPathOf src
    if pp ∈ fs2 then
      ⟨some { st1 with name := newname }, fs2.erase pp,
        [FsOp.rename src dst, FsOp.unlink pp, FsOp.save], none⟩
    else
      ⟨some { st1 with name := newname }, fs2,
        [FsOp.rename src dst, FsOp.save], none⟩
  else ⟨some st1, fs, [], some VErr.storageFailure⟩

/-- GlossVideo.reversion. With revert=True and version 0 it deletes the
files (best effort) and the metadata record; with revert=True and a nonzero
version it strips one ".bak" (raising when the extension is not ".bak")
and decrements the version; with revert=False it searches for a free backup
name, incrementing the version per appended ".bak". Both rename paths then
run the shared rename / poster invalidation / save tail. -/
def reversion (loc : FPath) (env : Env) (fs : List FPath) (st : RecState)
    (revert : Bool) : Outcome :=
  if revert then
    if st.version = 0 then
      let df := delete_files loc fs st.name
      ⟨none, df.1, df.2 ++ [FsOp.deleteRec], none⟩
    else
      if (splitext st.name).2 = ".bak".toList then
        renamePhase loc env fs st.name { st with version := st.version - 1 } (splitext st.name).1
      else ⟨some st, fs, [], some VErr.chainCorruption⟩
  else
    match findFree loc fs (fs.length + 1) st.name st.version with
    | some (newname, v) => renamePhase loc env fs st.name { st with version := v } newname
    | none => ⟨some st, fs, [], some VErr.fuelExhausted⟩

theorem lastIdx?_cons_of_some {c x : Char} {xs : FPath} {i : Nat}
    (h : lastIdx? c xs = some i) : lastIdx? c (x :: xs) = some (i + 1) := by
  simp [lastIdx?, h]

theorem lastIdx?_cons_of_none {c x : Char} {xs : FPath}
    (h : lastIdx? c xs = none) :
    lastIdx? c (x :: xs) = if x = c then some 0 else none := by
  simp [lastIdx?, h]

theorem lastIdx?_append_of_some {c : Char} {b : FPath} {j : Nat}
    (hb : lastIdx? c b = some j) (a : FPath) :
    lastIdx? c (a ++ b) = some (a.length + j) := by
  induction a with
  | nil => simpa using hb
  | cons x xs ih =>
    rw [List.cons_append, lastIdx?_cons_of_some ih]
    simp only [List.length_cons, Option.some.injEq]
    omega

theorem lastIdx?_append_of_none {c : Char} {b : FPath}
    (hb : lastIdx? c b = none) (a : FPath) :
    lastIdx? c (a ++ b) = lastIdx? c a := by
  induction a with
  | nil => simpa using hb
  | cons x xs ih =>
    rw [List.cons_append]
    cases hxs : lastIdx? c xs with
    | some i =>
      rw [lastIdx?_cons_of_some (hxs ▸ ih), lastIdx?_cons_of_some hxs]
    | none =>
      rw [lastIdx?_cons_of_none (hxs ▸ ih), lastIdx?_cons_of_none hxs]

theorem mem_iff_lastIdx?_isSome {c : Char} {l : FPath} :
    c ∈ l ↔ (lastIdx? c l).isSome := by
  induction l with
  | nil => simp [lastIdx?]
  | cons x xs ih =>
    cases h : lastIdx? c xs with
    | some i =>
      rw [lastIdx?_cons_of_some h]
      simp only [h, Option.isSome_some, iff_true] at ih
      simp [List.mem_cons, ih]
    | none =>
      rw [lastIdx?_cons_of_none h]
      simp only [h, Option.isSome_none] at ih
      by_cases hx : x = c
      · simp [hx, List.mem_cons]
      · rw [if_neg hx]
        simp only [List.mem_cons, Option.isSome_none, Bool.false_eq_true, iff_false]
        intro hc
        rcases hc with hc | hc
        · exact hx hc.symm
        · rw [ih] at hc
          exact absurd hc (by simp)

theorem lastIdx?_eq_none {c : Char} {l : FPath} :
    lastIdx? c l = none ↔ c ∉ l := by
  rw [mem_iff_lastIdx?_isSome]
  cases h : lastIdx? c l <;> simp

theorem lastIdx?_lt_length {c : Char} {l : FPath} {i : Nat}
    (h : lastIdx? c l = some i) : i < l.length := by
  induction l generalizing i with
  | nil => simp [lastIdx?] at h
  | cons x xs ih =>
    cases hx : lastIdx? c xs with
    | some j =>
      rw [lastIdx?_cons_of_some hx] at h
      cases h
      exact Nat.succ_lt_succ (ih hx)
    | none =>
      rw [lastIdx?_cons_of_none hx] at h
      by_cases hc : x = c
      · simp [hc] at h
        simp only [List.length_cons]
        omega
      · simp [hc] at h

theorem lastIdx?_not_mem_drop {c : Char} {l : FPath} {i : Nat}
    (h : lastIdx? c l = some i) : c ∉ l.drop (i + 1) := by
  induction l generalizing i with
  | nil => simp [lastIdx?] at h
  | cons x xs ih =>
    cases hx : lastIdx? c xs with
    | some j =>
      rw [lastIdx?_cons_of_some hx] at h
      cases h
      simpa using ih hx
    | none =>
      rw [lastIdx?_cons_of_none hx] at h
      by_cases hc : x = c
      · simp [hc] at h
        subst h
        simpa using lastIdx?_eq_none.mp hx
      · simp [hc] at h

theorem splitext_fst_append_snd (p : FPath) :
    (splitext p).1 ++ (splitext p).2 = p := by
  unfold splitext
  cases h : lastIdx? '.' p with
  | none => simp
  | some d =>
    dsimp only
    split_ifs <;> simp [List.take_append_drop]

/-- C3: a record with positive version whose filename does not end in ".bak"
raises the chain corruption error on revert, with the filesystem, the trace
and the record state untouched and no save performed. -/
theorem claim_C3 (loc : FPath) (env : Env) (fs : List FPath) (st : RecState)
    (h1 : 0 < st.version) (h2 : ¬ (".bak".toList <:+ st.name)) :
    reversion loc env fs st true = ⟨some st, fs, [], some VErr.chainCorruption⟩ := by
  have hv : ¬ st.version = 0 := by omega
  have hext : ¬ (splitext st.name).2 = ".bak".toList := by
    intro he
    exact h2 ⟨(splitext st.name).1, by rw [← he]; exact splitext_fst_append_snd st.name⟩
  have hext2 : ¬ (splitext st.name).2 = ['.', 'b', 'a', 'k'] := by simpa using hext
  unfold reversion
  simp [hv, hext2]

/-- C3 witness: the claim applied to the record with version 2 and filename
"x.mp4". -/
theorem claim_C3_witness :
    (0 : Int) < 2
  ∧ reversion "/m".toList ⟨false, false⟩ ["/m/x.mp4".toList] ⟨2, "x.mp4".toList⟩ true
      = ⟨some ⟨2, "x.mp4".toList⟩, ["/m/x.mp4".toList], [], some VErr.chainCorruption⟩ :=
  ⟨by decide,
    claim_C3 "/m".toList ⟨false, false⟩ ["/m/x.mp4".toList] ⟨2, "x.mp4".toList⟩
      (by decide) (by decide)⟩

/-- C1: reversion with revert=False appends ".bak" and increments the
version while a file exists at the candidate, then renames to the final
candidate and stores it: with only "x.mp4" pre-existing one advance yields
filename "x.mp4.bak" and version 1; with "x.mp4" and "x.mp4.bak" both
pre-existing, advance from "x.mp4" yields "x.mp4.bak.bak" and version 2. -/
theorem claim_C1 :
    reversion "/m".toList ⟨false, false⟩ ["/m/x.mp4".toList] ⟨0, "x.mp4".toList⟩ false
      = ⟨some ⟨1, "x.mp4.bak".toList⟩, ["/m/x.mp4.bak".toList],
          [FsOp.rename "/m/x.mp4".toList "/m/x.mp4.bak".toList, FsOp.save], none⟩
  ∧ reversion "/m".toList ⟨false, false⟩
        ["/m/x.mp4".toList, "/m/x.mp4.bak".toList] ⟨0, "x.mp4".toList⟩ false
      = ⟨some ⟨2, "x.mp4.bak.bak".toList⟩,
          ["/m/x.mp4.bak.bak".toList, "/m/x.mp4.bak".toList],
          [FsOp.rename "/m/x.mp4".toList "/m/x.mp4.bak.bak".toList, FsOp.save], none⟩ := by
  decide

/-- C2: advance/revert round-trip: from version 0 with filename "x.mp4"
whose physical file exists (and no "x.mp4.bak"), reversion with
revert=False followed by reversion with revert=True restores version 0,
filename "x.mp4" and the original filesystem. -/
theorem claim_C2 :
    reversion "/m".toList ⟨false, false⟩ ["/m/x.mp4".toList] ⟨0, "x.mp4".toList⟩ false
      = ⟨some ⟨1, "x.mp4.bak".toList⟩, ["/m/x.mp4.bak".toList],
          [FsOp.rename "/m/x.mp4".toList "/m/x.mp4.bak".toList, FsOp.save], none⟩
  ∧ reversion "/m".toList ⟨false, false⟩ ["/m/x.mp4.bak".toList] ⟨1, "x.mp4.bak".toList⟩ true
      = ⟨some ⟨0, "x.mp4".toList⟩, ["/m/x.mp4".toList],
          [FsOp.rename "/m/x.mp4.bak".toList "/m/x.mp4".toList, FsOp.save], none⟩ := by
  decide

/-- C4 counterexample: with "x.mp4" present and the rename failing, advance
propagates the storage failure with no save, but the in-memory version has
already been incremented to 1, so the record state is not left unmodified
as the claim states. -/
theorem claim_C4_cex :
    reversion "/m".toList ⟨true, false⟩ ["/m/x.mp4".toList] ⟨0, "x.mp4".toList⟩ false
      = ⟨some ⟨1, "x.mp4".toList⟩, ["/m/x.mp4".toList], [], some VErr.storageFailure⟩
  ∧ (reversion "/m".toList ⟨true, false⟩ ["/m/x.mp4".toList] ⟨0, "x.mp4".toList⟩ false).record
      ≠ some ⟨0, "x.mp4".toList⟩ := by
  decide

/-- C5 counterexample: terminal revert of a version-0 record "x.mp4" whose
video file is absent but whose poster "/m/x.jpg" exists: the video unlink
raises, the bare except swallows it and skips the poster unlink, so the
poster survives, contradicting the claim that the poster is deleted with
absence of either file tolerated. -/
theorem claim_C5_cex :
    reversion "/m".toList ⟨false, false⟩ ["/m/x.jpg".toList] ⟨0, "x.mp4".toList⟩ true
      = ⟨none, ["/m/x.jpg".toList], [FsOp.deleteRec], none⟩
  ∧ posterPathOf (joinPath "/m".toList "x.mp4".toList)
      ∈ (reversion "/m".toList ⟨false, false⟩ ["/m/x.jpg".toList] ⟨0, "x.mp4".toList⟩ true).fs := by
  decide

/-- C6 counterexample: poster_url on a video whose poster is absent invokes
the frame extraction operation (poster_path is called with create=True),
contradicting the claim that poster_url never triggers generation. -/
theorem claim_C6_cex :
    FsOp.extract "/m/x.mp4".toList "/m/x.jpg".toList
      ∈ (poster_url "/m".toList "/u".toList ⟨false, false⟩
          ["/m/x.mp4".toList] "x.mp4".toList).trace := by
  decide

theorem renamePhase_char (loc : FPath) (env : Env) (fs : List FPath)
    (oldName : FPath) (st1 : RecState) (newname : FPath) :
    (¬ (joinPath loc oldName ∈ fs ∧ env.renameFails = false) ∧
       renamePhase loc env fs oldName st1 newname
         = ⟨some st1, fs, [], some VErr.storageFailure⟩)
  ∨ ((joinPath loc oldName ∈ fs ∧ env.renameFails = false) ∧
       (renamePhase loc env fs oldName st1 newname).record
         = some { st1 with name := newname } ∧
       (renamePhase loc env fs oldName st1 newname).err = none) := by
  simp only [renamePhase]
  split_ifs with h1 h2 <;> simp_all

theorem reversion_cases (loc : FPath) (env : Env) (fs : List FPath)
    (st : RecState) (rv : Bool) :
    (rv = true ∧ st.version = 0 ∧
       reversion loc env fs st rv
         = ⟨none, (delete_files loc fs st.name).1,
             (delete_files loc fs st.name).2 ++ [FsOp.deleteRec], none⟩)
  ∨ (rv = true ∧ ¬ st.version = 0 ∧ ¬ (splitext st.name).2 = ".bak".toList ∧
       reversion loc env fs st rv = ⟨some st, fs, [], some VErr.chainCorruption⟩)
  ∨ (rv = true ∧ ¬ st.version = 0 ∧ (splitext st.name).2 = ".bak".toList ∧
       reversion loc env fs st rv
         = renamePhase loc env fs st.name ⟨st.version - 1, st.name⟩ (splitext st.name).1)
  ∨ (rv = false ∧ ∃ nm v,
       findFree loc fs (fs.length + 1) st.name st.version = some (nm, v) ∧
       reversion loc env fs st rv = renamePhase loc env fs st.name ⟨v, st.name⟩ nm)
  ∨ (rv = false ∧ findFree loc fs (fs.length + 1) st.name st.version = none ∧
       reversion loc env fs st rv = ⟨some st, fs, [], some VErr.fuelExhausted⟩) := by
  cases rv with
  | true =>
    by_cases hv : st.version = 0
    · exact Or.inl ⟨rfl, hv, by simp [reversion, hv]⟩
    · by_cases he : (splitext st.name).2 = ".bak".toList
      · exact Or.inr (Or.inr (Or.inl ⟨rfl, hv, he, by simp [reversion, hv, he]⟩))
      · have he2 : ¬ (splitext st.name).2 = ['.', 'b', 'a', 'k'] := by simpa using he
        exact Or.inr (Or.inl ⟨rfl, hv, he, by simp [reversion, hv, he2]⟩)
  | false =>
    cases hf : findFree loc fs (fs.length + 1) st.name st.version with
    | some pr =>
      obtain ⟨nm, v⟩ := pr
      exact Or.inr (Or.inr (Or.inr (Or.inl ⟨rfl, nm, v, rfl, by simp [reversion, hf]⟩)))
    | none =>
      exact Or.inr (Or.inr (Or.inr (Or.inr ⟨rfl, rfl, by simp [reversion, hf]⟩)))

/-- C4 amended: when the rename fails, reversion propagates the storage
failure, the filename is unmodified, the filesystem is unchanged, nothing is
traced and in particular no save occurs; the version counter, however, may
already have been mutated in memory. -/
theorem claim_C4_amended (loc : FPath) (env : Env) (fs : List FPath)
    (st : RecState) (rv : Bool)
    (h : (reversion loc env fs st rv).err = some VErr.storageFailure) :
    ∃ st', (reversion loc env fs st rv).record = some st'
      ∧ st'.name = st.name
      ∧ (reversion loc env fs st rv).fs = fs
      ∧ (reversion loc env fs st rv).trace = []
      ∧ FsOp.save ∉ (reversion loc env fs st rv).trace := by
  rcases reversion_cases loc env fs st rv with
    ⟨_, _, ho⟩ | ⟨_, _, _, ho⟩ | ⟨_, _, _, ho⟩ | ⟨_, nm, v, _, ho⟩ | ⟨_, _, ho⟩
  · rw [ho] at h; simp at h
  · rw [ho] at h; simp at h
  · rcases renamePhase_char loc env fs st.name ⟨st.version - 1, st.name⟩
        (splitext st.name).1 with ⟨_, hr⟩ | ⟨_, _, herr⟩
    · rw [ho, hr]
      exact ⟨⟨st.version - 1, st.name⟩, rfl, rfl, rfl, rfl, by simp⟩
    · rw [ho, herr] at h; simp at h
  · rcases renamePhase_char loc env fs st.name ⟨v, st.name⟩ nm with
      ⟨_, hr⟩ | ⟨_, _, herr⟩
    · rw [ho, hr]
      exact ⟨⟨v, st.name⟩, rfl, rfl, rfl, rfl, by simp⟩
    · rw [ho, herr] at h; simp at h
  · rw [ho] at h; simp at h

/-- C4 amended witness: advance on "x.mp4" (file present) with a failing
rename: the storage failure propagates, filename and filesystem unchanged,
empty trace, no save. -/
theorem claim_C4_amended_witness :
    (reversion "/m".toList ⟨true, false⟩ ["/m/x.mp4".toList]
        ⟨0, "x.mp4".toList⟩ false).err = some VErr.storageFailure
  ∧ ∃ st', (reversion "/m".toList ⟨true, false⟩ ["/m/x.mp4".toList]
        ⟨0, "x.mp4".toList⟩ false).record = some st'
      ∧ st'.name = "x.mp4".toList
      ∧ (reversion "/m".toList ⟨true, false⟩ ["/m/x.mp4".toList]
            ⟨0, "x.mp4".toList⟩ false).fs = ["/m/x.mp4".toList]
      ∧ (reversion "/m".toList ⟨true, false⟩ ["/m/x.mp4".toList]
            ⟨0, "x.mp4".toList⟩ false).trace = []
      ∧ FsOp.save ∉ (reversion "/m".toList ⟨true, false⟩ ["/m/x.mp4".toList]
            ⟨0, "x.mp4".toList⟩ false).trace :=
  ⟨by decide,
    claim_C4_amended "/m".toList ⟨true, false⟩ ["/m/x.mp4".toList]
      ⟨0, "x.mp4".toList⟩ false (by decide)⟩

theorem delete_files_char (loc : FPath) (fs : List FPath) (name : FPath)
    (hnd : fs.Nodup) :
    (joinPath loc name ∈ fs →
        joinPath loc name ∉ (delete_files loc fs name).1
      ∧ (posterPathOf (joinPath loc name) ∈ fs.erase (joinPath loc name) →
          posterPathOf (joinPath loc name) ∉ (delete_files loc fs name).1))
  ∧ (joinPath loc name ∉ fs → (delete_files loc fs name).1 = fs)
  ∧ (∀ op ∈ (delete_files loc fs name).2, ∃ q, op = FsOp.unlink q) := by
  by_cases hv : joinPath loc name ∈ fs
  · by_cases hp : posterPathOf (joinPath loc name) ∈ fs.erase (joinPath loc name)
    · have hdf : delete_files loc fs name
          = ((fs.erase (joinPath loc name)).erase (posterPathOf (joinPath loc name)),
             [FsOp.unlink (joinPath loc name),
              FsOp.unlink (posterPathOf (joinPath loc name))]) := by
        simp [delete_files, hv, hp]
      rw [hdf]
      refine ⟨fun _ => ⟨?_, fun _ => ?_⟩, fun hnv => absurd hv hnv, ?_⟩
      · intro hmem
        exact ((hnd.mem_erase_iff).mp (List.mem_of_mem_erase hmem)).1 rfl
      · intro hmem
        exact (((hnd.erase _).mem_erase_iff).mp hmem).1 rfl
      · intro op hop
        simp only [List.mem_cons, List.not_mem_nil, or_false] at hop
        rcases hop with h | h
        · exact ⟨_, h⟩
        · exact ⟨_, h⟩
    · have hdf : delete_files loc fs name
          = (fs.erase (joinPath loc name), [FsOp.unlink (joinPath loc name)]) := by
        simp [delete_files, hv, hp]
      rw [hdf]
      refine ⟨fun _ => ⟨?_, fun hpp => absurd hpp hp⟩, fun hnv => absurd hv hnv, ?_⟩
      · intro hmem
        exact ((hnd.mem_erase_iff).mp hmem).1 rfl
      · intro op hop
        simp only [List.mem_singleton] at hop
        exact ⟨_, hop⟩
  · have hdf : delete_files loc fs name = (fs, []) := by simp [delete_files, hv]
    rw [hdf]
    exact ⟨fun hmem => absurd hmem hv, fun _ => rfl, by simp⟩

/-- C5 amended: terminal revert (version 0) deletes the metadata record with
no rename and no save; deletion of the files is best-effort through a single
try block: when the video file exists it is unlinked and an existing poster
is unlinked after it, but when the video file is absent the swallowed
exception skips all deletions, so the filesystem (including any poster) is
left unchanged. -/
theorem claim_C5_amended (loc : FPath) (env : Env) (fs : List FPath)
    (st : RecState) (hnd : fs.Nodup) (h0 : st.version = 0) :
    (reversion loc env fs st true).record = none
  ∧ (reversion loc env fs st true).err = none
  ∧ (∀ s d, FsOp.rename s d ∉ (reversion loc env fs st true).trace)
  ∧ FsOp.save ∉ (reversion loc env fs st true).trace
  ∧ (joinPath loc st.name ∈ fs →
      joinPath loc st.name ∉ (reversion loc env fs st true).fs
      ∧ (posterPathOf (joinPath loc st.name) ∈ fs.erase (joinPath loc st.name) →
          posterPathOf (joinPath loc st.name) ∉ (reversion loc env fs st true).fs))
  ∧ (joinPath loc st.name ∉ fs → (reversion loc env fs st true).fs = fs) := by
  have hrev : reversion loc env fs st true
      = ⟨none, (delete_files loc fs st.name).1,
          (delete_files loc fs st.name).2 ++ [FsOp.deleteRec], none⟩ := by
    simp [reversion, h0]
  obtain ⟨hmem, hnomem, hops⟩ := delete_files_char loc fs st.name hnd
  rw [hrev]
  refine ⟨rfl, rfl, ?_, ?_, hmem, hnomem⟩
  · intro s d hin
    rcases List.mem_append.mp hin with hin | hin
    · obtain ⟨q, hq⟩ := hops _ hin
      simp at hq
    · simp at hin
  · intro hin
    rcases List.mem_append.mp hin with hin | hin
    · obtain ⟨q, hq⟩ := hops _ hin
      simp at hq
    · simp at hin

/-- C5 amended witness: with "x.mp4" and its poster "x.jpg" both present,
terminal revert removes both files, deletes the record, and performs no
rename and no save. -/
theorem claim_C5_amended_witness :
    (["/m/x.mp4".toList, "/m/x.jpg".toList] : List FPath).Nodup
  ∧ ((reversion "/m".toList ⟨false, false⟩
        ["/m/x.mp4".toList, "/m/x.jpg".toList] ⟨0, "x.mp4".toList⟩ true).record = none
      ∧ (reversion "/m".toList ⟨false, false⟩
          ["/m/x.mp4".toList, "/m/x.jpg".toList] ⟨0, "x.mp4".toList⟩ true).err = none) :=
  ⟨by decide,
    let h := claim_C5_amended "/m".toList ⟨false, false⟩
      ["/m/x.mp4".toList, "/m/x.jpg".toList] ⟨0, "x.mp4".toList⟩ (by decide) rfl
    ⟨h.1, h.2.1⟩⟩

/-- C6 amended: poster_url derives the poster URL from the video URL by the
extension-swap rule, but it does call poster generation: poster_path runs
with create=True, invoking frame extraction exactly when the poster file is
absent. -/
theorem claim_C6_amended (loc baseUrl : FPath) (env : Env) (fs : List FPath)
    (name : FPath) (hx : env.extractFails = false) :
    (poster_url loc baseUrl env fs name).url
        = some ((splitext (joinPath baseUrl name)).1 ++ ".jpg".toList)
  ∧ (posterPathOf (joinPath loc name) ∈ fs →
        (poster_url loc baseUrl env fs name).trace = [])
  ∧ (posterPathOf (joinPath loc name) ∉ fs →
        (poster_url loc baseUrl env fs name).trace
          = [FsOp.extract (joinPath loc name) (posterPathOf (joinPath loc name))]) := by
  by_cases hp : posterPathOf (joinPath loc name) ∈ fs <;>
    simp [poster_url, poster_path, hp, hx]

/-- C6 amended witness: with the poster absent, poster_url returns the
swapped URL "/u/x.jpg" and its trace is exactly the frame extraction. -/
theorem claim_C6_amended_witness :
    (⟨false, false⟩ : Env).extractFails = false
  ∧ ((poster_url "/m".toList "/u".toList ⟨false, false⟩
        ["/m/x.mp4".toList] "x.mp4".toList).url
      = some ((splitext (joinPath "/u".toList "x.mp4".toList)).1 ++ ".jpg".toList)) :=
  ⟨rfl,
    (claim_C6_amended "/m".toList "/u".toList ⟨false, false⟩
      ["/m/x.mp4".toList] "x.mp4".toList rfl).1⟩

/-- C7: poster_path with create=True returns the poster immediately with no
extraction on a cache hit; on a cache miss with the external extraction
failing, it surfaces the generation failure and does not return the poster
path. The extraction behaviour is modelled from the spec since
video/convertvideo.py is not part of the analysed source. -/
theorem claim_C7 (loc : FPath) (env : Env) (fs : List FPath) (name : FPath) :
    (posterPathOf (joinPath loc name) ∈ fs →
        poster_path loc env fs name true
          = ⟨some (posterPathOf (joinPath loc name)), fs, [], none⟩)
  ∧ (posterPathOf (joinPath loc name) ∉ fs → env.extractFails = true →
        poster_path loc env fs name true
          = ⟨none, fs,
              [FsOp.extract (joinPath loc name) (posterPathOf (joinPath loc name))],
              some VErr.generationFailure⟩) := by
  by_cases hp : posterPathOf (joinPath loc name) ∈ fs <;>
    by_cases hx : env.extractFails <;> simp [poster_path, hp, hx]

/-- C7 witness: cache hit with the poster "/m/x.jpg" present returns it with
an empty trace; cache miss with failing extraction surfaces the failure. -/
theorem claim_C7_witness :
    poster_path "/m".toList ⟨false, true⟩ ["/m/x.jpg".toList] "x.mp4".toList true
      = ⟨some (posterPathOf (joinPath "/m".toList "x.mp4".toList)),
          ["/m/x.jpg".toList], [], none⟩
  ∧ poster_path "/m".toList ⟨false, true⟩ ["/m/x.mp4".toList] "x.mp4".toList true
      = ⟨none, ["/m/x.mp4".toList],
          [FsOp.extract (joinPath "/m".toList "x.mp4".toList)
            (posterPathOf (joinPath "/m".toList "x.mp4".toList))],
          some VErr.generationFailure⟩ :=
  ⟨(claim_C7 "/m".toList ⟨false, true⟩ ["/m/x.jpg".toList] "x.mp4".toList).1 (by decide),
   (claim_C7 "/m".toList ⟨false, true⟩ ["/m/x.mp4".toList] "x.mp4".toList).2
     (by decide) rfl⟩

theorem splitext_of_ext (stem ext : FPath) (h1 : '.' ∉ ext) (h2 : '/' ∉ ext)
    (h3 : ¬ (basenameOf stem).all (fun c => c = '.')) :
    splitext (stem ++ '.' :: ext) = (stem, '.' :: ext) := by
  have hne : lastIdx? '.' ext = none := lastIdx?_eq_none.mpr h1
  have hdotcons : lastIdx? '.' ('.' :: ext) = some 0 := by
    rw [lastIdx?_cons_of_none hne]; simp
  have hdot : lastIdx? '.' (stem ++ '.' :: ext) = some stem.length := by
    simpa using lastIdx?_append_of_some hdotcons stem
  have hslc : lastIdx? '/' ('.' :: ext) = none := by
    apply lastIdx?_eq_none.mpr
    intro hc
    rcases List.mem_cons.mp hc with hc | hc
    · exact absurd hc (by decide)
    · exact h2 hc
  have hsep : sepCut (stem ++ '.' :: ext) = sepCut stem := by
    unfold sepCut
    rw [lastIdx?_append_of_none hslc stem]
  have hfile : sepCut stem ≤ stem.length := by
    unfold sepCut
    cases hi : lastIdx? '/' stem with
    | none => exact Nat.zero_le _
    | some i => exact lastIdx?_lt_length hi
  have hseg : ((stem ++ '.' :: ext).drop (sepCut stem)).take (stem.length - sepCut stem)
      = basenameOf stem := by
    rw [List.drop_append_of_le_length hfile]
    have hlen : stem.length - sepCut stem = (stem.drop (sepCut stem)).length := by
      rw [List.length_drop]
    rw [hlen, List.take_left]
    rfl
  unfold splitext
  rw [hdot]
  dsimp only
  rw [hsep]
  rw [if_pos ⟨hfile, by rw [hseg]; exact h3⟩]
  rw [List.take_left, List.drop_left]

/-- C8: poster path derivation replaces only the final extension of the
video path with ".jpg": for a path of the form stem.ext, where the
extension carries no dot and no slash and the basename of the stem is not
entirely dots, the derived poster path is the stem with ".jpg" appended. -/
theorem claim_C8 (stem ext : FPath) (h1 : '.' ∉ ext) (h2 : '/' ∉ ext)
    (h3 : ¬ (basenameOf stem).all (fun c => c = '.')) :
    posterPathOf (stem ++ '.' :: ext) = stem ++ ".jpg".toList := by
  unfold posterPathOf
  rw [splitext_of_ext stem ext h1 h2 h3]

/-- C8 witness: the claim applied to the spec's examples "a/b/clip.mp4" and
"a/b/clip.tar.mp4", which map to "a/b/clip.jpg" and "a/b/clip.tar.jpg". -/
theorem claim_C8_witness :
    posterPathOf ("a/b/clip".toList ++ '.' :: "mp4".toList) = "a/b/clip".toList ++ ".jpg".toList
  ∧ posterPathOf ("a/b/clip.tar".toList ++ '.' :: "mp4".toList)
      = "a/b/clip.tar".toList ++ ".jpg".toList :=
  ⟨claim_C8 "a/b/clip".toList "mp4".toList (by decide) (by decide) (by decide),
   claim_C8 "a/b/clip.tar".toList "mp4".toList (by decide) (by decide) (by decide)⟩

theorem mem_of_getLast?_eq_some {l : FPath} {a : Char}
    (h : l.getLast? = some a) : a ∈ l := by
  have hx : a ∈ l.getLast? := by rw [h]; rfl
  obtain ⟨hne, heq⟩ := List.mem_getLast?_eq_getLast hx
  rw [heq]
  exact List.getLast_mem hne

theorem mem_of_head?_eq_some {l : FPath} {a : Char}
    (h : l.head? = some a) : a ∈ l :=
  List.mem_of_mem_head? (by simp [h])

theorem slash_not_mem_basename (p : FPath) : '/' ∉ basenameOf p := by
  unfold basenameOf sepCut
  cases hi : lastIdx? '/' p with
  | none => simpa using lastIdx?_eq_none.mp hi
  | some i => exact lastIdx?_not_mem_drop hi

theorem joinPath_abs {a b : FPath} (h : b.head? = some '/') :
    joinPath a b = b := by
  simp [joinPath, h]

theorem joinPath_flat {a b : FPath} (hb : ¬ b.head? = some '/')
    (h : a = [] ∨ a.getLast? = some '/') : joinPath a b = a ++ b := by
  simp only [joinPath]
  rw [if_neg hb, if_pos h]

theorem joinPath_sep {a b : FPath} (hb : ¬ b.head? = some '/')
    (h1 : ¬ a = []) (h2 : ¬ a.getLast? = some '/') :
    joinPath a b = a ++ '/' :: b := by
  simp only [joinPath]
  rw [if_neg hb, if_neg (not_or.mpr ⟨h1, h2⟩)]

/-- Second definition for the refinement claim about the shadow path,
following the spec's words: split the name into (dir, basename), take the
first two characters of the basename as the partition prefix (the whole
basename when shorter), and return dir, the partition prefix and the
basename joined from the left. -/
def spec_shadow_path (name : FPath) : FPath :=
  joinPath (joinPath (dirOf name) ((basenameOf name).take 2)) (basenameOf name)

theorem joinPath_nil_right_cond (a : FPath) :
    joinPath a [] = [] ∨ (joinPath a []).getLast? = some '/' := by
  by_cases hd : a = [] ∨ a.getLast? = some '/'
  · rw [joinPath_flat (by simp) hd, List.append_nil]
    exact hd
  · rw [joinPath_sep (by simp) (not_or.mp hd).1 (not_or.mp hd).2]
    right
    rw [List.getLast?_append_of_ne_nil a (show (['/'] : FPath) ≠ [] by simp)]
    rfl

/-- C9: the path naming scheme of GlossVideoStorage.get_valid_name agrees,
for every name, with the spec's description: split into (dir, basename),
partition prefix = first two characters of the basename (the whole basename
when shorter, including empty), result = dir / prefix / basename. Being a
Lean function it is pure and deterministic. -/
theorem claim_C9 (name : FPath) : get_valid_name name = spec_shadow_path name := by
  unfold get_valid_name spec_shadow_path
  have hb : '/' ∉ basenameOf name := slash_not_mem_basename name
  by_cases hb0 : basenameOf name = []
  · rw [hb0]
    have hinner : joinPath ([] : FPath) [] = [] := rfl
    simp only [List.take_nil, hinner]
    rcases joinPath_nil_right_cond (dirOf name) with hy | hy
    · rw [joinPath_flat (by simp) (Or.inl hy), List.append_nil]
    · rw [joinPath_flat (by simp) (Or.inr hy), List.append_nil]
  · have hpfx0 : (basenameOf name).take 2 ≠ [] := by
      intro h
      rcases List.take_eq_nil_iff.mp h with h | h
      · exact absurd h (by decide)
      · exact hb0 h
    have hpfxmem : '/' ∉ (basenameOf name).take 2 :=
      fun hm => hb (List.mem_of_mem_take hm)
    have hbh : ¬ (basenameOf name).head? = some '/' :=
      fun h => hb (mem_of_head?_eq_some h)
    have hph : ¬ ((basenameOf name).take 2).head? = some '/' :=
      fun h => hpfxmem (mem_of_head?_eq_some h)
    have hpl : ¬ ((basenameOf name).take 2).getLast? = some '/' :=
      fun h => hpfxmem (mem_of_getLast?_eq_some h)
    have hinner : joinPath ((basenameOf name).take 2) (basenameOf name)
        = (basenameOf name).take 2 ++ '/' :: basenameOf name :=
      joinPath_sep hbh hpfx0 hpl
    have hih : ¬ ((basenameOf name).take 2 ++ '/' :: basenameOf name).head? = some '/' := by
      cases hp : (basenameOf name).take 2 with
      | nil => exact absurd hp hpfx0
      | cons x xs =>
        intro hhd
        apply hph
        rw [hp]
        rw [List.cons_append] at hhd
        simpa using hhd
    rw [hinner]
    by_cases hd : dirOf name = [] ∨ (dirOf name).getLast? = some '/'
    · rw [joinPath_flat hih hd, joinPath_flat hph hd]
      rw [joinPath_sep hbh (by simp [hpfx0]) ?hlast]
      · rw [List.append_assoc]
      case hlast =>
        rw [List.getLast?_append_of_ne_nil (dirOf name) hpfx0]
        exact hpl
    · have h1 := (not_or.mp hd).1
      have h2 := (not_or.mp hd).2
      rw [joinPath_sep hih h1 h2, joinPath_sep hph h1 h2]
      rw [joinPath_sep hbh (by simp) ?hlast2]
      · simp
      case hlast2 =>
        rw [List.getLast?_append_of_ne_nil (dirOf name)
          (show ('/' :: (basenameOf name).take 2 : FPath) ≠ [] by simp)]
        rw [show ('/' :: (basenameOf name).take 2) = ['/'] ++ (basenameOf name).take 2 from rfl]
        rw [List.getLast?_append_of_ne_nil ['/'] hpfx0]
        exact hpl

theorem findFree_some {loc : FPath} {fs : List FPath} :
    ∀ {fuel : Nat} {nm nm' : FPath} {v v' : Int},
    findFree loc fs fuel nm v = some (nm', v') →
    ∃ k : Nat, nm' = nm ++ bakRep k ∧ v' = v + k
      ∧ (∀ j < k, joinPath loc (nm ++ bakRep j) ∈ fs)
      ∧ joinPath loc nm' ∉ fs := by
  intro fuel
  induction fuel with
  | zero => intro nm nm' v v' h; simp [findFree] at h
  | succ fuel ih =>
    intro nm nm' v v' h
    by_cases hmem : joinPath loc nm ∈ fs
    · rw [findFree, if_pos hmem] at h
      obtain ⟨k, hk1, hk2, hk3, hk4⟩ := ih h
      refine ⟨k + 1, ?_, ?_, ?_, hk4⟩
      · rw [hk1, List.append_assoc]
        rfl
      · rw [hk2]
        push_cast
        ring
      · intro j hj
        cases j with
        | zero => simpa [bakRep] using hmem
        | succ j' =>
          have hj' : j' < k := by omega
          have := hk3 j' hj'
          rw [List.append_assoc] at this
          exact this
    · rw [findFree, if_neg hmem] at h
      cases h
      exact ⟨0, by simp [bakRep], by simp, fun j hj => absurd hj (Nat.not_lt_zero j),
        by simpa [bakRep] using hmem⟩

/-- C10 (implicit): every advance that completes without raising strictly
increases the version, appending at least one ".bak", and the version
increase equals the number of ".bak" blocks appended to the filename; and
when no physical file exists at the record's current filename, advance
raises the rename failure (missing source) instead of completing as a
no-op. -/
theorem claim_C10 (loc : FPath) (env : Env) (fs : List FPath) (st : RecState) :
    ((reversion loc env fs st false).err = none →
      ∃ k : Nat, 1 ≤ k
        ∧ (reversion loc env fs st false).record
            = some ⟨st.version + k, st.name ++ bakRep k⟩)
  ∧ (joinPath loc st.name ∉ fs →
      (reversion loc env fs st false).err = some VErr.storageFailure) := by
  constructor
  · intro herr
    rcases reversion_cases loc env fs st false with
      ⟨h, _⟩ | ⟨h, _⟩ | ⟨h, _⟩ | ⟨_, nm, v, hf, ho⟩ | ⟨_, _, ho⟩
    · exact absurd h (by simp)
    · exact absurd h (by simp)
    · exact absurd h (by simp)
    · rw [ho] at herr ⊢
      rcases renamePhase_char loc env fs st.name ⟨v, st.name⟩ nm with
        ⟨_, hr⟩ | ⟨⟨hsrc, _⟩, hrec, _⟩
      · rw [hr] at herr
        simp at herr
      · obtain ⟨k, hk1, hk2, hk3, hk4⟩ := findFree_some hf
        have hk0 : ¬ k = 0 := by
          intro h0
          subst h0
          rw [hk1] at hk4
          simp [bakRep] at hk4
          exact hk4 hsrc
        refine ⟨k, by omega, ?_⟩
        rw [hrec, hk1, hk2]
    · rw [ho] at herr
      simp at herr
  · intro hsrc
    have hf : findFree loc fs (fs.length + 1) st.name st.version
        = some (st.name, st.version) := by
      rw [findFree, if_neg hsrc]
    have ho : reversion loc env fs st false
        = renamePhase loc env fs st.name ⟨st.version, st.name⟩ st.name := by
      simp [reversion, hf]
    rw [ho]
    rcases renamePhase_char loc env fs st.name ⟨st.version, st.name⟩ st.name with
      ⟨_, hr⟩ | ⟨⟨hmem, _⟩, _, _⟩
    · rw [hr]
    · exact absurd hmem hsrc

/-- C10 witness: with only "x.mp4" present the advance completes and the
characterization applies; with a missing source the advance surfaces the
rename failure. -/
theorem claim_C10_witness :
    (∃ k : Nat, 1 ≤ k
      ∧ (reversion "/m".toList ⟨false, false⟩ ["/m/x.mp4".toList]
            ⟨0, "x.mp4".toList⟩ false).record
          = some ⟨(0 : Int) + k, "x.mp4".toList ++ bakRep k⟩)
  ∧ (reversion "/n".toList ⟨false, false⟩ ["/m/x.mp4".toList]
        ⟨0, "y.mp4".toList⟩ false).err = some VErr.storageFailure :=
  ⟨(claim_C10 "/m".toList ⟨false, false⟩ ["/m/x.mp4".toList]
      ⟨0, "x.mp4".toList⟩).1 (by decide),
   (claim_C10 "/n".toList ⟨false, false⟩ ["/m/x.mp4".toList]
      ⟨0, "y.mp4".toList⟩).2 (by decide)⟩

theorem joinPath_length_lt (loc nm : FPath) :
    (joinPath loc nm).length < (joinPath loc (nm ++ ".bak".toList)).length := by
  have hb4 : (".bak".toList : FPath).length = 4 := rfl
  cases nm with
  | nil =>
    by_cases hd : loc = [] ∨ loc.getLast? = some '/'
    · rw [joinPath_flat (by simp) hd, joinPath_flat (by decide) hd]
      simp only [List.nil_append, List.append_nil, List.length_append,
        List.length_nil, hb4]
      omega
    · rw [joinPath_sep (by simp) (not_or.mp hd).1 (not_or.mp hd).2,
          joinPath_sep (by decide) (not_or.mp hd).1 (not_or.mp hd).2]
      simp only [List.nil_append, List.append_nil, List.length_append,
        List.length_cons, List.length_nil, hb4]
      omega
  | cons x xs =>
    by_cases hx : x = '/'
    · subst hx
      rw [joinPath_abs (by simp), joinPath_abs (by simp [List.cons_append])]
      simp only [List.length_append, hb4]
      omega
    · have hh1 : ¬ (x :: xs).head? = some '/' := by simp [hx]
      have hh2 : ¬ ((x :: xs) ++ ".bak".toList).head? = some '/' := by
        simp [List.cons_append, hx]
      by_cases hd : loc = [] ∨ loc.getLast? = some '/'
      · rw [joinPath_flat hh1 hd, joinPath_flat hh2 hd]
        simp only [List.length_append, List.length_cons, hb4]
        omega
      · rw [joinPath_sep hh1 (not_or.mp hd).1 (not_or.mp hd).2,
            joinPath_sep hh2 (not_or.mp hd).1 (not_or.mp hd).2]
        simp only [List.length_append, List.length_cons, hb4]
        omega

theorem length_filter_le_of_imp {p q : FPath → Bool} (l : List FPath)
    (himp : ∀ x, q x = true → p x = true) :
    (l.filter q).length ≤ (l.filter p).length := by
  induction l with
  | nil => simp
  | cons x xs ih =>
    by_cases hq : q x = true
    · rw [List.filter_cons_of_pos hq, List.filter_cons_of_pos (himp x hq)]
      simpa using ih
    · rw [List.filter_cons_of_neg (by simpa using hq)]
      by_cases hp : p x = true
      · rw [List.filter_cons_of_pos hp]
        exact Nat.le_succ_of_le ih
      · rw [List.filter_cons_of_neg (by simpa using hp)]
        exact ih

theorem length_filter_lt {p q : FPath → Bool} {l : List FPath} {a : FPath}
    (himp : ∀ x, q x = true → p x = true) (ha : a ∈ l)
    (hpa : p a = true) (hqa : q a = false) :
    (l.filter q).length < (l.filter p).length := by
  induction l with
  | nil => cases ha
  | cons x xs ih =>
    rcases List.mem_cons.mp ha with rfl | hmem
    · rw [List.filter_cons_of_pos hpa, List.filter_cons_of_neg (by simp [hqa])]
      exact Nat.lt_succ_of_le (length_filter_le_of_imp xs himp)
    · by_cases hq : q x = true
      · rw [List.filter_cons_of_pos hq, List.filter_cons_of_pos (himp x hq)]
        simpa using ih hmem
      · rw [List.filter_cons_of_neg (by simpa using hq)]
        by_cases hp : p x = true
        · rw [List.filter_cons_of_pos hp]
          exact Nat.lt_succ_of_lt (ih hmem)
        · rw [List.filter_cons_of_neg (by simpa using hp)]
          exact ih hmem

theorem findFree_isSome {loc : FPath} {fs : List FPath} :
    ∀ {fuel : Nat} {nm : FPath} {v : Int},
    (fs.filter (fun q => (joinPath loc nm).length ≤ q.length)).length < fuel →
    (findFree loc fs fuel nm v).isSome = true := by
  intro fuel
  induction fuel with
  | zero => intro nm v h; exact absurd h (Nat.not_lt_zero _)
  | succ fuel ih =>
    intro nm v h
    by_cases hmem : joinPath loc nm ∈ fs
    · rw [findFree, if_pos hmem]
      apply ih
      have hlt := joinPath_length_lt loc nm
      have hstrict :
          (fs.filter (fun q => (joinPath loc (nm ++ ".bak".toList)).length ≤ q.length)).length
            < (fs.filter (fun q => (joinPath loc nm).length ≤ q.length)).length := by
        apply length_filter_lt _ hmem
        · exact decide_eq_true (Nat.le_refl _)
        · exact decide_eq_false (by omega)
        · intro x hx
          have hx' := of_decide_eq_true hx
          exact decide_eq_true (by omega)
      omega
    · rw [findFree, if_neg hmem]
      rfl

/-- The fuel bound used in reversion is always sufficient: the candidate
search never exhausts it, so the fuelExhausted outcome of the model is
unreachable (the Python loop terminates because each candidate that keeps
the loop going occupies a distinct, strictly longer, existing path). -/
theorem reversion_err_ne_fuelExhausted (loc : FPath) (env : Env)
    (fs : List FPath) (st : RecState) (rv : Bool) :
    (reversion loc env fs st rv).err ≠ some VErr.fuelExhausted := by
  rcases reversion_cases loc env fs st rv with
    ⟨_, _, ho⟩ | ⟨_, _, _, ho⟩ | ⟨_, _, _, ho⟩ | ⟨_, nm, v, _, ho⟩ | ⟨_, hf, ho⟩
  · rw [ho]; simp
  · rw [ho]; simp
  · rcases renamePhase_char loc env fs st.name ⟨st.version - 1, st.name⟩
        (splitext st.name).1 with ⟨_, hr⟩ | ⟨_, _, herr⟩
    · rw [ho, hr]; simp
    · rw [ho, herr]; simp
  · rcases renamePhase_char loc env fs st.name ⟨v, st.name⟩ nm with
      ⟨_, hr⟩ | ⟨_, _, herr⟩
    · rw [ho, hr]; simp
    · rw [ho, herr]; simp
  · have hs : (findFree loc fs (fs.length + 1) st.name st.version).isSome = true := by
      apply findFree_isSome
      have := List.length_filter_le
        (fun q => (joinPath loc st.name).length ≤ q.length) fs
      omega
    rw [hf] at hs
    simp at hs

/-- Sanity checks evaluating the path primitives on concrete inputs, matching
CPython os.path behaviour. -/
theorem path_primitives_sanity :
    splitext "a/b/clip.tar.mp4".toList = ("a/b/clip.tar".toList, ".mp4".toList)
  ∧ splitext "x.mp4.bak".toList = ("x.mp4".toList, ".bak".toList)
  ∧ splitext "a/.bak".toList = ("a/.bak".toList, [])
  ∧ get_valid_name "video/myvid.mp4".toList = "video/my/myvid.mp4".toList
  ∧ posterPathOf "/m/x.mp4".toList = "/m/x.jpg".toList := by
  decide

end SBV
